import Mathlib

/-!
Verification of the streaming-output coalescing engine of the
discord-claude-bridge repository (`src/discord/stream-renderer.ts`).

The development shallowly embeds the renderer's pure logic:

* the content splitter (`splitContent`, lines 352-393), including the exact
  JavaScript `String.prototype.slice` / `indexOf` / `lastIndexOf` semantics
  it relies on (strings are modelled as `List Char`, one entry per UTF-16
  code unit);
* the accumulator state machine (`processMessage` and the handlers it
  dispatches to, lines 135-255), with the flush side effects factored out;
* the content builder (`buildMessageContent` / `buildToolSection` /
  `truncateText`, lines 406-523); the tool-line formatters
  (`formatDiff`, `formatWrite`, `formatToolCallCompact`) live outside this
  core and are modelled as an injected `ToolFormatter` capability;
* the debounced flush scheduler (`scheduleFlush` / the timer callback /
  the scheduling part of `flushNow`, lines 260-288), as an explicit state
  machine over `FlushSchedule`;
* the sink interaction of a flush (`flushNow`'s single-message branch,
  lines 290-322, and `sendMultipleMessages`, lines 327-346), as functions
  from an outcome oracle to the trace of attempted sink operations.
-/

namespace StreamRenderer

/-! ## Configuration constants (stream-renderer.ts lines 20-23) -/

def DEBOUNCE_MS : Nat := 1500
def MAX_MESSAGE_LENGTH : Nat := 1950
def MAX_TOOL_HISTORY : Nat := 5

/-! ## JavaScript string primitives

`splitContent` and `ensureMaxLength` use `slice`, `indexOf` and
`lastIndexOf` with possibly negative or out-of-range arguments, so the
JavaScript semantics is reproduced exactly over `List Char`. -/

/-- A found index, or `-1` for "not found", as JS string search returns. -/
def foundToInt : Option Nat → Int
  | some i => (i : Int)
  | none => -1

/-- JS `s.lastIndexOf(pat, pos)`: the largest start index `i ≤ clamp(pos)`
at which `pat` occurs in `s`, or `-1` if there is none. -/
def jsLastIndexOf (s pat : List Char) (pos : Int) : Int :=
  foundToInt ((List.range (min (Int.toNat (max pos 0)) s.length + 1)).reverse.find?
    (fun i => pat.isPrefixOf (s.drop i)))

/-- JS `s.indexOf(pat, pos)`: the smallest start index `i ≥ clamp(pos)`
at which `pat` occurs in `s`, or `-1` if there is none. -/
def jsIndexOf (s pat : List Char) (pos : Int) : Int :=
  foundToInt ((List.range (s.length + 1)).find?
    (fun i => decide (min (Int.toNat (max pos 0)) s.length ≤ i)
      && pat.isPrefixOf (s.drop i)))

/-- Normalisation of a JS slice index: negative values count from the end,
everything is clamped into `[0, len]`. -/
def normIdx (len : Nat) (i : Int) : Nat :=
  if i < 0 then ((len : Int) + i).toNat else min i.toNat len

/-- JS `s.slice(b, e)` on strings. -/
def jsSlice (s : List Char) (b e : Int) : List Char :=
  (s.take (normIdx s.length e)).drop (normIdx s.length b)

/-- JS `s.slice(b)` on strings. -/
def jsSliceFrom (s : List Char) (b : Int) : List Char :=
  s.drop (normIdx s.length b)

theorem normIdx_zero (len : Nat) : normIdx len 0 = 0 := by
  unfold normIdx
  simp

theorem normIdx_of_nonneg (len : Nat) (p : Int) (hp : 0 ≤ p) :
    normIdx len p = min p.toNat len := by
  unfold normIdx
  rw [if_neg (by omega)]

theorem jsLastIndexOf_le (s pat : List Char) (pos : Int) :
    jsLastIndexOf s pat pos ≤ max pos 0 := by
  unfold jsLastIndexOf
  cases hfind : (List.range (min (Int.toNat (max pos 0)) s.length + 1)).reverse.find?
      (fun i => pat.isPrefixOf (s.drop i)) with
  | none =>
    simp only [foundToInt]
    omega
  | some i =>
    have hmem : i ∈ (List.range (min (Int.toNat (max pos 0)) s.length + 1)).reverse :=
      List.mem_of_find?_eq_some hfind
    rw [List.mem_reverse, List.mem_range] at hmem
    simp only [foundToInt]
    omega

theorem jsIndexOf_nonneg_of_ne (s pat : List Char) (pos : Int)
    (h : jsIndexOf s pat pos ≠ -1) : 0 ≤ jsIndexOf s pat pos := by
  unfold jsIndexOf at h ⊢
  cases hfind : (List.range (s.length + 1)).find?
      (fun i => decide (min (Int.toNat (max pos 0)) s.length ≤ i)
        && pat.isPrefixOf (s.drop i)) with
  | none => rw [hfind] at h; simp [foundToInt] at h
  | some i =>
    simp only [foundToInt]
    omega

theorem jsSlice_zero_append_from (s : List Char) (p : Int) :
    jsSlice s 0 p ++ jsSliceFrom s p = s := by
  unfold jsSlice jsSliceFrom
  rw [normIdx_zero]
  simp [List.take_append_drop]

theorem length_jsSlice_zero (s : List Char) (p : Int) (hp : 0 ≤ p) :
    ((jsSlice s 0 p).length : Int) ≤ p := by
  unfold jsSlice
  rw [normIdx_zero, normIdx_of_nonneg _ _ hp]
  simp only [List.drop_zero, List.length_take]
  omega

theorem length_jsSliceFrom_lt (s : List Char) (p : Int)
    (hp : 1 ≤ p) (hs : 1 ≤ s.length) :
    (jsSliceFrom s p).length < s.length := by
  unfold jsSliceFrom
  rw [normIdx_of_nonneg _ _ (by omega)]
  simp only [List.length_drop]
  omega

/-! ## Content splitter (stream-renderer.ts lines 352-393) -/

/-- One iteration's choice of split point in `splitContent`
(the body of the `while` loop after the final-chunk check).
`maxLen` is `this.maxMessageLength - 50`. -/
def splitStep (maxLen : Int) (remaining : List Char) : Int :=
  let codeBlockEnd := jsLastIndexOf remaining ("\n```".toList) maxLen
  if codeBlockEnd > maxLen - 500 ∧ codeBlockEnd > 100 then
    let afterCodeBlock := jsIndexOf remaining ['\n'] (codeBlockEnd + 4)
    if afterCodeBlock ≠ -1 ∧ afterCodeBlock ≤ maxLen then afterCodeBlock + 1
    else maxLen
  else
    let doubleNewline := jsLastIndexOf remaining "\n\n".toList maxLen
    if doubleNewline > maxLen - 300 ∧ doubleNewline > 100 then doubleNewline + 2
    else
      let singleNewline := jsLastIndexOf remaining ['\n'] maxLen
      if singleNewline > maxLen - 200 ∧ singleNewline > 100 then singleNewline + 1
      else maxLen

/-- The `while` loop of `splitContent`, with explicit fuel: one unit of fuel
per iteration.  `none` models a computation that is still looping after
`fuel` iterations; in particular `(∀ fuel, splitContentGo m fuel r = none)`
says the JavaScript loop diverges on `r`. -/
def splitContentGo (maxLen : Int) : Nat → List Char → Option (List (List Char))
  | 0, _ => none
  | fuel + 1, remaining =>
    if remaining.length = 0 then some []
    else if (remaining.length : Int) ≤ maxLen then some [remaining]
    else
      let splitPoint := splitStep maxLen remaining
      (splitContentGo maxLen fuel (jsSliceFrom remaining splitPoint)).map
        (fun rest => jsSlice remaining 0 splitPoint :: rest)

/-- `StreamRenderer.splitContent`.  The loop runs at most `content.length`
iterations whenever it terminates at all (each iteration drops at least one
character), so fuel `content.length + 1` is exact: a `none` result means
the JavaScript loop makes no progress. -/
def splitContent (maxMessageLength : Nat) (content : List Char) :
    Option (List (List Char)) :=
  splitContentGo ((maxMessageLength : Int) - 50) (content.length + 1) content

theorem splitStep_bounds (maxLen : Int) (h1 : 1 ≤ maxLen) (remaining : List Char) :
    1 ≤ splitStep maxLen remaining ∧ splitStep maxLen remaining ≤ maxLen + 2 := by
  have hmax : max maxLen 0 = maxLen := by omega
  unfold splitStep
  have hcbe := jsLastIndexOf_le remaining ("\n```".toList) maxLen
  have hdn := jsLastIndexOf_le remaining ("\n\n".toList) maxLen
  have hsn := jsLastIndexOf_le remaining ['\n'] maxLen
  rw [hmax] at hcbe hdn hsn
  simp only
  split
  · split
    · next hacb =>
      have := jsIndexOf_nonneg_of_ne remaining ['\n']
        (jsLastIndexOf remaining ("\n```".toList) maxLen + 4) hacb.1
      omega
    · omega
  · split
    · omega
    · split
      · omega
      · omega

/-- Soundness of the split loop: with at least `remaining.length + 1` fuel
and a positive `maxLen`, the loop terminates, the chunks concatenate back to
the input, and every chunk has at most `maxLen + 2` characters. -/
theorem splitContentGo_sound (maxLen : Int) (h1 : 1 ≤ maxLen) :
    ∀ (fuel : Nat) (remaining : List Char), remaining.length < fuel →
      ∃ chunks, splitContentGo maxLen fuel remaining = some chunks ∧
        chunks.flatten = remaining ∧
        ∀ c ∈ chunks, (c.length : Int) ≤ maxLen + 2 := by
  intro fuel
  induction fuel with
  | zero => intro r hr; omega
  | succ n ih =>
    intro r hr
    by_cases hz : r.length = 0
    · refine ⟨[], ?_, ?_, ?_⟩
      · simp [splitContentGo, hz]
      · simp only [List.flatten_nil]
        exact (List.length_eq_zero.mp hz).symm
      · intro c hc; simp at hc
    · by_cases hfit : (r.length : Int) ≤ maxLen
      · refine ⟨[r], ?_, by simp, ?_⟩
        · simp [splitContentGo, hz, hfit]
        · intro c hc
          simp at hc
          subst hc
          omega
      · have hbound := splitStep_bounds maxLen h1 r
        have hlt : (jsSliceFrom r (splitStep maxLen r)).length < r.length :=
          length_jsSliceFrom_lt r _ hbound.1 (by omega)
        obtain ⟨rest, hrest, hflat, hlen⟩ :=
          ih (jsSliceFrom r (splitStep maxLen r)) (by omega)
        refine ⟨jsSlice r 0 (splitStep maxLen r) :: rest, ?_, ?_, ?_⟩
        · simp only [splitContentGo]
          rw [if_neg hz, if_neg hfit, hrest]
          rfl
        · simp only [List.flatten_cons, hflat]
          exact jsSlice_zero_append_from r _
        · intro c hc
          rcases List.mem_cons.mp hc with hc | hc
          · subst hc
            have := length_jsSlice_zero r (splitStep maxLen r) (by omega)
            omega
          · exact hlen c hc

/-- C1, amended: if `maxMessageLength ≥ 51` the splitter returns chunks
that concatenate losslessly to the input and each fit in the limit. -/
theorem splitContent_lossless_and_bounded (mm : Nat) (h : 51 ≤ mm)
    (content : List Char) :
    ∃ chunks, splitContent mm content = some chunks ∧
      chunks.flatten = content ∧
      ∀ c ∈ chunks, c.length ≤ mm := by
  obtain ⟨chunks, heq, hflat, hlen⟩ :=
    splitContentGo_sound ((mm : Int) - 50) (by omega)
      (content.length + 1) content (by omega)
  refine ⟨chunks, heq, hflat, fun c hc => ?_⟩
  have := hlen c hc
  omega


/-- C1 witness: the amended theorem instantiated at the default message
limit on a concrete input. -/
theorem splitContent_lossless_and_bounded_witness :
    51 ≤ 1950 ∧
      ∃ chunks, splitContent 1950 "hi".toList = some chunks ∧
        chunks.flatten = "hi".toList ∧
        ∀ c ∈ chunks, c.length ≤ 1950 :=
  ⟨by decide, splitContent_lossless_and_bounded 1950 (by decide) "hi".toList⟩

theorem splitContentGo_stuck_at_zero :
    ∀ fuel : Nat, splitContentGo 0 fuel "a".toList = none := by
  intro fuel
  induction fuel with
  | zero => rfl
  | succ n ih =>
    have hstep : splitStep 0 "a".toList = 0 := by decide
    have hdrop : jsSliceFrom "a".toList (0 : Int) = "a".toList := by decide
    simp only [splitContentGo, hstep, hdrop, ih]
    rfl

/-- C1 counterexample: at `maxChunkSize = 50` (so the internal margin
`maxLen` is `0`) the split loop never terminates on the one-character
input `"a"`: no amount of fuel produces a result, so no chunk list with
the claimed properties is ever returned. -/
theorem splitContent_diverges_at_50 :
    splitContent 50 "a".toList = none ∧
      ¬ ∃ (fuel : Nat) (chunks : List (List Char)),
          splitContentGo ((50 : Int) - 50) fuel "a".toList = some chunks := by
  constructor
  · exact splitContentGo_stuck_at_zero 2
  · rintro ⟨fuel, chunks, h⟩
    rw [show ((50 : Int) - 50) = 0 by norm_num, splitContentGo_stuck_at_zero fuel] at h
    cases h

/-- C9: whenever `maxMessageLength ≥ 51`, every split point chosen by the
loop body is at least `1`, each iteration strictly shortens the remaining
string, and `splitContent` terminates on every input. -/
theorem splitContent_terminates (mm : Nat) (h : 51 ≤ mm) (content : List Char) :
    (∀ remaining : List Char, (remaining.length : Int) > (mm : Int) - 50 →
        1 ≤ splitStep ((mm : Int) - 50) remaining ∧
        (jsSliceFrom remaining (splitStep ((mm : Int) - 50) remaining)).length
          < remaining.length) ∧
      (splitContent mm content).isSome := by
  constructor
  · intro remaining hlong
    have hb := splitStep_bounds ((mm : Int) - 50) (by omega) remaining
    exact ⟨hb.1, length_jsSliceFrom_lt remaining _ hb.1 (by omega)⟩
  · obtain ⟨chunks, heq, -, -⟩ :=
      splitContentGo_sound ((mm : Int) - 50) (by omega)
        (content.length + 1) content (by omega)
    rw [splitContent, heq]
    rfl

/-- C9 witness: termination at the default limit on a concrete input. -/
theorem splitContent_terminates_witness :
    51 ≤ 1950 ∧ (splitContent 1950 "abc".toList).isSome :=
  ⟨by decide, (splitContent_terminates 1950 (by decide) "abc".toList).2⟩

/-! ## Accumulator state (stream-renderer.ts lines 32-50) -/

inductive ToolStatus
  | running
  | complete
  | error
deriving DecidableEq

/-- `ToolCallRecord` (lines 32-38).  The JS `input` / `output` payloads are
`Record<string, unknown>` / `unknown` blobs that this core never inspects
(it only hands them to the injected formatters), so they are carried as
opaque strings. -/
structure ToolCallRecord where
  name : String
  input : String
  status : ToolStatus
  output : Option String
  timestamp : Nat
deriving DecidableEq

/-- The accumulator's buffer state (lines 44-50); the `buffer` field of the
class is never read or written outside its initializer and is omitted. -/
structure SessionState where
  currentText : String
  toolCalls : List ToolCallRecord
  isComplete : Bool
  hasError : Bool
  errorMessage : String
deriving DecidableEq

def initialState : SessionState := ⟨"", [], false, false, ""⟩

/-! ## Events consumed by `processMessage` (lines 135-218) -/

/-- A content block of a full assistant message (`handleAssistantMessage`). -/
inductive ContentBlock
  | text (t : String)
  | toolUse (name input : String)
  | toolResult (toolUseId output : String)
deriving DecidableEq

/-- The stream events `handleStreamEvent` distinguishes. -/
inductive StreamEv
  | deltaText (t : String)
  | deltaInputJson
  | blockStartToolUse (name input : String)
  | blockStartOther
  | blockStop
deriving DecidableEq

/-- The SDK message types `processMessage` dispatches on.  A `result`
carries its subtype (`success` or not) and the optional `errors` list. -/
inductive SDKMsg
  | system
  | assistant (blocks : List ContentBlock)
  | streamEvent (e : StreamEv)
  | result (isSuccess : Bool) (errors : List String)
deriving DecidableEq

/-! ## Tool-call handlers (lines 223-255) -/

/-- `handleToolStart` (lines 223-239): push a `running` record, then keep
only the most recent `MAX_TOOL_HISTORY` records (`slice(-MAX_TOOL_HISTORY)`,
applied only when the window is exceeded). -/
def handleToolStart (tools : List ToolCallRecord) (name input : String)
    (now : Nat) : List ToolCallRecord :=
  let grown := tools ++ [⟨name, input, .running, none, now⟩]
  if MAX_TOOL_HISTORY < grown.length then
    grown.drop (grown.length - MAX_TOOL_HISTORY)
  else grown

/-- The in-place update of `handleToolComplete` viewed from the reversed
list: `[...toolCalls].reverse().find(t => t.status === 'running')` selects
the first running record of the reversal and mutates that record. -/
def completeFirstRunning (output : String) :
    List ToolCallRecord → List ToolCallRecord
  | [] => []
  | t :: ts =>
    if t.status = .running then
      { t with status := .complete, output := some output } :: ts
    else t :: completeFirstRunning output ts

/-- `handleToolComplete` (lines 244-255).  The `toolUseId` argument is
accepted but ignored, exactly as in the source ("we don't have tool_use_id
in our simple tracking, so update the last running one"). -/
def handleToolComplete (_toolUseId : String) (tools : List ToolCallRecord)
    (output : String) : List ToolCallRecord :=
  (completeFirstRunning output tools.reverse).reverse

/-! ## Message application (lines 135-218, flush side effects factored out;
the flush scheduling itself is modelled separately below) -/

def applyBlock (now : Nat) (s : SessionState) : ContentBlock → SessionState
  | .text t => { s with currentText := t }
  | .toolUse name input =>
      { s with toolCalls := handleToolStart s.toolCalls name input now }
  | .toolResult toolUseId output =>
      { s with toolCalls := handleToolComplete toolUseId s.toolCalls output }

/-- `handleStreamEvent` (lines 191-218).  An empty `text_delta` is falsy in
the JS guard `delta.type === 'text_delta' && delta.text` and is skipped. -/
def applyStreamEvent (now : Nat) (s : SessionState) : StreamEv → SessionState
  | .deltaText t =>
      if t = "" then s else { s with currentText := s.currentText ++ t }
  | .deltaInputJson => s
  | .blockStartToolUse name input =>
      { s with toolCalls := handleToolStart s.toolCalls name input now }
  | .blockStartOther => s
  | .blockStop => s

/-- `processMessage` (lines 135-163).  `sp` is the `showPartialText`
option (default `true`); stream events are only applied when it is set. -/
def applyMessage (sp : Bool) (now : Nat) (s : SessionState) :
    SDKMsg → SessionState
  | .system => s
  | .assistant blocks => blocks.foldl (applyBlock now) s
  | .streamEvent e => if sp then applyStreamEvent now s e else s
  | .result isSuccess errors =>
      let s := { s with isComplete := true }
      if isSuccess then s
      else
        { s with hasError := true,
                 errorMessage :=
                   if String.intercalate "\n" errors = "" then "Query failed"
                   else String.intercalate "\n" errors }

/-- A whole stream: each message paired with the `Date.now()` value the
handlers would observe while processing it. -/
def applyAll (sp : Bool) (s : SessionState) :
    List (Nat × SDKMsg) → SessionState
  | [] => s
  | (now, m) :: rest => applyAll sp (applyMessage sp now s m) rest

/-! ## Tool-window lemmas -/

theorem handleToolStart_eq_drop (tools : List ToolCallRecord)
    (name input : String) (now : Nat) :
    handleToolStart tools name input now
      = (tools ++ [(⟨name, input, .running, none, now⟩ : ToolCallRecord)]).drop
          ((tools.length + 1) - MAX_TOOL_HISTORY) := by
  unfold handleToolStart
  simp only [List.length_append, List.length_singleton]
  split
  · rfl
  · next hle =>
    rw [show tools.length + 1 - MAX_TOOL_HISTORY = 0 by
          unfold MAX_TOOL_HISTORY at hle ⊢; omega,
        List.drop_zero]

theorem length_handleToolStart_le (tools : List ToolCallRecord)
    (name input : String) (now : Nat) :
    (handleToolStart tools name input now).length ≤ MAX_TOOL_HISTORY := by
  rw [handleToolStart_eq_drop]
  simp only [List.length_drop, List.length_append, List.length_singleton]
  unfold MAX_TOOL_HISTORY
  omega

theorem mem_handleToolStart (tools : List ToolCallRecord)
    (name input : String) (now : Nat) (t : ToolCallRecord)
    (ht : t ∈ handleToolStart tools name input now) :
    t ∈ tools ∨ t = (⟨name, input, .running, none, now⟩ : ToolCallRecord) := by
  rw [handleToolStart_eq_drop] at ht
  have := List.mem_of_mem_drop ht
  rcases List.mem_append.mp this with h | h
  · exact Or.inl h
  · exact Or.inr (List.mem_singleton.mp h)

theorem length_completeFirstRunning (output : String)
    (l : List ToolCallRecord) :
    (completeFirstRunning output l).length = l.length := by
  induction l with
  | nil => rfl
  | cons t ts ih =>
    unfold completeFirstRunning
    split
    · simp
    · simp [ih]

theorem length_handleToolComplete (id : String)
    (tools : List ToolCallRecord) (output : String) :
    (handleToolComplete id tools output).length = tools.length := by
  unfold handleToolComplete
  rw [List.length_reverse, length_completeFirstRunning, List.length_reverse]

theorem mem_completeFirstRunning (output : String)
    (l : List ToolCallRecord) (t : ToolCallRecord)
    (ht : t ∈ completeFirstRunning output l) :
    t ∈ l ∨ t.status = .complete := by
  induction l with
  | nil => simp [completeFirstRunning] at ht
  | cons u us ih =>
    unfold completeFirstRunning at ht
    split at ht
    · rcases List.mem_cons.mp ht with h | h
      · subst h; exact Or.inr rfl
      · exact Or.inl (List.mem_cons_of_mem u h)
    · rcases List.mem_cons.mp ht with h | h
      · rw [h]; exact Or.inl (List.mem_cons_self u us)
      · rcases ih h with h | h
        · exact Or.inl (List.mem_cons_of_mem u h)
        · exact Or.inr h

theorem mem_handleToolComplete (id : String)
    (tools : List ToolCallRecord) (output : String) (t : ToolCallRecord)
    (ht : t ∈ handleToolComplete id tools output) :
    t ∈ tools ∨ t.status = .complete := by
  unfold handleToolComplete at ht
  rw [List.mem_reverse] at ht
  rcases mem_completeFirstRunning output tools.reverse t ht with h | h
  · exact Or.inl (List.mem_reverse.mp h)
  · exact Or.inr h

/-! ## Reachability invariants of the tool ledger -/

theorem toolCalls_le_applyBlock (now : Nat) (s : SessionState)
    (b : ContentBlock) (h : s.toolCalls.length ≤ MAX_TOOL_HISTORY) :
    (applyBlock now s b).toolCalls.length ≤ MAX_TOOL_HISTORY := by
  cases b with
  | text t => exact h
  | toolUse name input => exact length_handleToolStart_le s.toolCalls name input now
  | toolResult id output =>
    simpa [applyBlock, length_handleToolComplete] using h

theorem toolCalls_le_foldl (now : Nat) (blocks : List ContentBlock) :
    ∀ s : SessionState, s.toolCalls.length ≤ MAX_TOOL_HISTORY →
      (blocks.foldl (applyBlock now) s).toolCalls.length ≤ MAX_TOOL_HISTORY := by
  induction blocks with
  | nil => intro s h; exact h
  | cons b bs ih =>
    intro s h
    exact ih _ (toolCalls_le_applyBlock now s b h)

theorem toolCalls_le_applyMessage (sp : Bool) (now : Nat) (s : SessionState)
    (m : SDKMsg) (h : s.toolCalls.length ≤ MAX_TOOL_HISTORY) :
    (applyMessage sp now s m).toolCalls.length ≤ MAX_TOOL_HISTORY := by
  cases m with
  | system => exact h
  | assistant blocks => exact toolCalls_le_foldl now blocks s h
  | streamEvent e =>
    cases sp with
    | false => exact h
    | true =>
      cases e with
      | deltaText t =>
        simp only [applyMessage, applyStreamEvent, if_true]
        split
        · exact h
        · exact h
      | deltaInputJson => exact h
      | blockStartToolUse name input =>
        exact length_handleToolStart_le s.toolCalls name input now
      | blockStartOther => exact h
      | blockStop => exact h
  | result isSuccess errors =>
    cases isSuccess with
    | false => exact h
    | true => exact h

theorem toolCalls_le_applyAll (sp : Bool) (msgs : List (Nat × SDKMsg)) :
    ∀ s : SessionState, s.toolCalls.length ≤ MAX_TOOL_HISTORY →
      (applyAll sp s msgs).toolCalls.length ≤ MAX_TOOL_HISTORY := by
  induction msgs with
  | nil => intro s h; exact h
  | cons p rest ih =>
    intro s h
    exact ih _ (toolCalls_le_applyMessage sp p.1 s p.2 h)

/-- C5: every `ToolStarted` appends a `running` record as the last element
of the ledger, eviction keeps exactly the most recent `MAX_TOOL_HISTORY`
records in their original order (a suffix of the appended list), and for
every event sequence starting from the initial state the ledger's length
stays at most `MAX_TOOL_HISTORY = 5`. -/
theorem toolStarted_appends_and_window (tools : List ToolCallRecord)
    (name input : String) (now : Nat) (sp : Bool)
    (msgs : List (Nat × SDKMsg)) :
    (handleToolStart tools name input now).getLast?
        = some ⟨name, input, .running, none, now⟩
    ∧ handleToolStart tools name input now
        = (tools ++ [(⟨name, input, .running, none, now⟩ : ToolCallRecord)]).drop
            ((tools.length + 1) - MAX_TOOL_HISTORY)
    ∧ (applyAll sp initialState msgs).toolCalls.length ≤ MAX_TOOL_HISTORY := by
  refine ⟨?_, handleToolStart_eq_drop tools name input now, ?_⟩
  · rw [handleToolStart_eq_drop,
        List.drop_append_eq_append_drop,
        show tools.length + 1 - MAX_TOOL_HISTORY - tools.length = 0 by
          unfold MAX_TOOL_HISTORY; omega,
        List.drop_zero]
    exact List.getLast?_concat _
  · exact toolCalls_le_applyAll sp msgs initialState (by simp [initialState])

/-! ## Status invariant (no record ever carries the `error` status) -/

/-- The per-record status emoji of `buildToolSection` (lines 487-488). -/
def statusEmoji (status : ToolStatus) : String :=
  if status = .running then "⏳" else if status = .error then "❌" else "✅"

theorem no_error_applyBlock (now : Nat) (s : SessionState) (b : ContentBlock)
    (h : ∀ t ∈ s.toolCalls, t.status ≠ .error) :
    ∀ t ∈ (applyBlock now s b).toolCalls, t.status ≠ .error := by
  cases b with
  | text txt => exact h
  | toolUse name input =>
    intro t ht
    rcases mem_handleToolStart s.toolCalls name input now t ht with h' | h'
    · exact h t h'
    · rw [h']; simp
  | toolResult id output =>
    intro t ht
    rcases mem_handleToolComplete id s.toolCalls output t ht with h' | h'
    · exact h t h'
    · rw [h']; simp

theorem no_error_foldl (now : Nat) (blocks : List ContentBlock) :
    ∀ s : SessionState, (∀ t ∈ s.toolCalls, t.status ≠ .error) →
      ∀ t ∈ (blocks.foldl (applyBlock now) s).toolCalls, t.status ≠ .error := by
  induction blocks with
  | nil => intro s h; exact h
  | cons b bs ih =>
    intro s h
    exact ih _ (no_error_applyBlock now s b h)

theorem no_error_applyMessage (sp : Bool) (now : Nat) (s : SessionState)
    (m : SDKMsg) (h : ∀ t ∈ s.toolCalls, t.status ≠ .error) :
    ∀ t ∈ (applyMessage sp now s m).toolCalls, t.status ≠ .error := by
  cases m with
  | system => exact h
  | assistant blocks => exact no_error_foldl now blocks s h
  | streamEvent e =>
    cases sp with
    | false => exact h
    | true =>
      cases e with
      | deltaText t =>
        simp only [applyMessage, applyStreamEvent, if_true]
        split
        · exact h
        · exact h
      | deltaInputJson => exact h
      | blockStartToolUse name input =>
        intro t ht
        rcases mem_handleToolStart s.toolCalls name input now t ht with h' | h'
        · exact h t h'
        · rw [h']; simp
      | blockStartOther => exact h
      | blockStop => exact h
  | result isSuccess errors =>
    cases isSuccess with
    | false => exact h
    | true => exact h

theorem no_error_applyAll (sp : Bool) (msgs : List (Nat × SDKMsg)) :
    ∀ s : SessionState, (∀ t ∈ s.toolCalls, t.status ≠ .error) →
      ∀ t ∈ (applyAll sp s msgs).toolCalls, t.status ≠ .error := by
  induction msgs with
  | nil => intro s h; exact h
  | cons p rest ih =>
    intro s h
    exact ih _ (no_error_applyMessage sp p.1 s p.2 h)

/-- C10: in every state reachable from the initial state, every tool-call
record's status is `running` or `complete`; the `error` status declared in
the type is never assigned, so the `'❌'` branch of the status-emoji
rendering in `buildToolSection` is never taken. -/
theorem toolStatus_never_error (sp : Bool) (msgs : List (Nat × SDKMsg)) :
    ∀ t ∈ (applyAll sp initialState msgs).toolCalls,
      (t.status = .running ∨ t.status = .complete)
        ∧ statusEmoji t.status ≠ "❌" := by
  intro t ht
  have hne : t.status ≠ .error :=
    no_error_applyAll sp msgs initialState (by simp [initialState]) t ht
  cases hst : t.status with
  | running => exact ⟨Or.inl rfl, by decide⟩
  | complete => exact ⟨Or.inr rfl, by decide⟩
  | error => exact absurd hst hne

/-- C10 witness: a concrete reachable record. -/
theorem toolStatus_never_error_witness :
    (⟨"Read", "f", .running, none, 0⟩ : ToolCallRecord) ∈
        (applyAll true initialState
          [(0, .streamEvent (.blockStartToolUse "Read" "f"))]).toolCalls
      ∧ (((⟨"Read", "f", .running, none, 0⟩ : ToolCallRecord).status = .running
          ∨ (⟨"Read", "f", .running, none, 0⟩ : ToolCallRecord).status = .complete)
        ∧ statusEmoji (⟨"Read", "f", .running, none, 0⟩ : ToolCallRecord).status
            ≠ "❌") :=
  ⟨by decide,
    toolStatus_never_error true [(0, .streamEvent (.blockStartToolUse "Read" "f"))]
      ⟨"Read", "f", .running, none, 0⟩ (by decide)⟩

/-! ## C6: correlation of `ToolFinished` with the most recent running call -/

theorem completeFirstRunning_cons (output : String) (t : ToolCallRecord)
    (ts : List ToolCallRecord) :
    completeFirstRunning output (t :: ts)
      = if t.status = .running then
          { t with status := .complete, output := some output } :: ts
        else t :: completeFirstRunning output ts := rfl

theorem completeFirstRunning_of_no_running (output : String)
    (l : List ToolCallRecord) (h : ∀ t ∈ l, t.status ≠ .running) :
    completeFirstRunning output l = l := by
  induction l with
  | nil => rfl
  | cons u us ih =>
    rw [completeFirstRunning_cons,
        if_neg (h u (List.mem_cons_self u us)),
        ih (fun t ht => h t (List.mem_cons_of_mem u ht))]

theorem completeFirstRunning_append (output : String)
    (l₁ l₂ : List ToolCallRecord) (h : ∀ t ∈ l₁, t.status ≠ .running) :
    completeFirstRunning output (l₁ ++ l₂)
      = l₁ ++ completeFirstRunning output l₂ := by
  induction l₁ with
  | nil => simp
  | cons u us ih =>
    simp only [List.cons_append]
    rw [completeFirstRunning_cons,
        if_neg (h u (List.mem_cons_self u us)),
        ih (fun t ht => h t (List.mem_cons_of_mem u ht))]

/-- C6: on `ToolFinished`, if no record is `running` the ledger is
unchanged; otherwise the most recent `running` record (the one followed
only by non-running records) is marked `complete` with the event's output
stored on it, while every other record and the order are untouched; the
supplied call id plays no role. -/
theorem toolFinished_completes_most_recent_running (id output : String)
    (tools : List ToolCallRecord) :
    ((∀ t ∈ tools, t.status ≠ .running) →
        handleToolComplete id tools output = tools)
    ∧ (∀ (pre post : List ToolCallRecord) (t : ToolCallRecord),
        tools = pre ++ t :: post → t.status = .running →
        (∀ u ∈ post, u.status ≠ .running) →
        handleToolComplete id tools output
          = pre ++ { t with status := .complete, output := some output }
              :: post) := by
  constructor
  · intro h
    unfold handleToolComplete
    rw [completeFirstRunning_of_no_running output tools.reverse
          (fun t ht => h t (List.mem_reverse.mp ht)),
        List.reverse_reverse]
  · intro pre post t htools ht hpost
    subst htools
    unfold handleToolComplete
    rw [show (pre ++ t :: post).reverse = post.reverse ++ t :: pre.reverse by
          simp,
        completeFirstRunning_append output post.reverse (t :: pre.reverse)
          (fun u hu => hpost u (List.mem_reverse.mp hu)),
        completeFirstRunning_cons, if_pos ht]
    simp

/-- C6 witness: with a stale id supplied, the later (running) record is the
one completed and the earlier record is untouched. -/
theorem toolFinished_completes_most_recent_running_witness :
    handleToolComplete "stale-id"
        [(⟨"Read", "a", .complete, some "o1", 0⟩ : ToolCallRecord),
         ⟨"Bash", "b", .running, none, 1⟩] "o2"
      = [⟨"Read", "a", .complete, some "o1", 0⟩,
         ⟨"Bash", "b", .complete, some "o2", 1⟩] :=
  (toolFinished_completes_most_recent_running "stale-id" "o2"
      [⟨"Read", "a", .complete, some "o1", 0⟩,
       ⟨"Bash", "b", .running, none, 1⟩]).2
    [⟨"Read", "a", .complete, some "o1", 0⟩] []
    ⟨"Bash", "b", .running, none, 1⟩ rfl rfl (by simp)

/-! ## C3: behaviour of the accumulator after completion -/

theorem applyBlock_isComplete_blind (now : Nat) (s : SessionState)
    (b : ContentBlock) :
    applyBlock now { s with isComplete := true } b
      = { applyBlock now s b with isComplete := true } := by
  cases b <;> rfl

theorem foldl_applyBlock_isComplete_blind (now : Nat)
    (blocks : List ContentBlock) :
    ∀ s : SessionState,
      blocks.foldl (applyBlock now) { s with isComplete := true }
        = { blocks.foldl (applyBlock now) s with isComplete := true } := by
  induction blocks with
  | nil => intro s; rfl
  | cons b bs ih =>
    intro s
    simp only [List.foldl_cons, applyBlock_isComplete_blind, ih]

/-- C3, amended: the accumulator never consults `isComplete` when applying
an event — there is no post-completion guard.  An event arriving after the
terminal result updates `currentText`, the tool ledger and the error fields
exactly as it would have before completion. -/
theorem accumulator_has_no_completion_guard (sp : Bool) (now : Nat)
    (s : SessionState) (m : SDKMsg) :
    (applyMessage sp now { s with isComplete := true } m).currentText
        = (applyMessage sp now s m).currentText
    ∧ (applyMessage sp now { s with isComplete := true } m).toolCalls
        = (applyMessage sp now s m).toolCalls
    ∧ (applyMessage sp now { s with isComplete := true } m).hasError
        = (applyMessage sp now s m).hasError
    ∧ (applyMessage sp now { s with isComplete := true } m).errorMessage
        = (applyMessage sp now s m).errorMessage := by
  cases m with
  | system => exact ⟨rfl, rfl, rfl, rfl⟩
  | assistant blocks =>
    simp [applyMessage, foldl_applyBlock_isComplete_blind]
  | streamEvent e =>
    cases sp with
    | false => exact ⟨rfl, rfl, rfl, rfl⟩
    | true =>
      cases e with
      | deltaText t =>
        simp only [applyMessage, applyStreamEvent, if_true]
        split
        · exact ⟨rfl, rfl, rfl, rfl⟩
        · exact ⟨rfl, rfl, rfl, rfl⟩
      | deltaInputJson => exact ⟨rfl, rfl, rfl, rfl⟩
      | blockStartToolUse name input => exact ⟨rfl, rfl, rfl, rfl⟩
      | blockStartOther => exact ⟨rfl, rfl, rfl, rfl⟩
      | blockStop => exact ⟨rfl, rfl, rfl, rfl⟩
  | result isSuccess errors =>
    cases isSuccess with
    | false => exact ⟨rfl, rfl, rfl, rfl⟩
    | true => exact ⟨rfl, rfl, rfl, rfl⟩

/-- C3 counterexample: a text delta applied after `isComplete` is set still
mutates the accumulator — the state is not left unchanged. -/
theorem event_after_complete_mutates :
    (applyMessage true 0 { initialState with isComplete := true }
        (.streamEvent (.deltaText "x"))).currentText = "x"
    ∧ applyMessage true 0 { initialState with isComplete := true }
        (.streamEvent (.deltaText "x"))
      ≠ { initialState with isComplete := true } := by
  exact ⟨by decide, by decide⟩

/-! ## Content builder (stream-renderer.ts lines 406-523)

The tool-line formatters (`formatDiff`, `formatWrite`,
`formatToolCallCompact`) live in `src/formatters/` outside this core; the
spec treats them as an injected black-box Formatter capability, so they are
parameters here.  String lengths are counted in characters. -/

structure ToolFormatter where
  formatDiff : String → String
  formatWrite : String → Option String → String
  formatToolCallCompact : String → String → String

structure BuildOptions where
  showToolCalls : Bool
  maxMessageLength : Nat

/-- One line of `buildToolSection` (lines 486-510): diffs and writes are
rendered by the formatter alone, everything else gets the status emoji. -/
def toolLine (F : ToolFormatter) (t : ToolCallRecord) : String :=
  if t.name = "Edit" ∧ t.status = .complete then F.formatDiff t.input
  else if t.name = "Write" ∧ t.status = .complete then F.formatWrite t.input t.output
  else statusEmoji t.status ++ " " ++ F.formatToolCallCompact t.name t.input

/-- `buildToolSection` (lines 483-513). -/
def buildToolSection (F : ToolFormatter) (tools : List ToolCallRecord) : String :=
  String.intercalate "\n" (tools.map (toolLine F))

/-- `truncateText` (lines 518-523): keep the first
`max(0, maxLength - 40)` characters and append the truncation marker (Nat
subtraction realises the `Math.max(0, ...)`). -/
def truncateText (text : String) (maxLength : Nat) : String :=
  if text.length ≤ maxLength then text
  else String.mk (text.data.take (maxLength - 40)) ++ "\n\n... *[truncated]*"

/-- The `toolSection` local of `buildMessageContent` (lines 410-413). -/
def toolSectionOf (F : ToolFormatter) (o : BuildOptions) (s : SessionState) :
    String :=
  if o.showToolCalls ∧ s.toolCalls ≠ [] then buildToolSection F s.toolCalls
  else ""

/-- The `footerParts` local of `buildMessageContent` (lines 415-434):
status indicator, error message, completion indicator, in that order. -/
def footerPartsOf (s : SessionState) : List String :=
  (if ¬ s.isComplete then
      match s.toolCalls.find? (fun t => decide (t.status = .running)) with
      | some t => ["\n⏳ *Running " ++ t.name ++ "...*"]
      | none => []
    else [])
  ++ (if s.hasError then ["\n❌ **Error:** " ++ truncateText s.errorMessage 200]
      else [])
  ++ (if s.isComplete ∧ ¬ s.hasError then ["\n✅ *Complete*"] else [])

/-- The `usedLength` accounting of `buildMessageContent` (lines 441-446). -/
def usedLengthOf (F : ToolFormatter) (o : BuildOptions) (s : SessionState) :
    Nat :=
  (if toolSectionOf F o s ≠ "" then (toolSectionOf F o s).length + 2 else 0)
  + ((footerPartsOf s).map (fun p => p.length + 2)).sum
  + (if toolSectionOf F o s ≠ "" ∧ s.currentText ≠ "" then 24 else 0)

/-- `availableForText` (line 448): at least 100 characters are always
granted to the running text, with a 50-character safety margin. -/
def availableForTextOf (F : ToolFormatter) (o : BuildOptions)
    (s : SessionState) : Nat :=
  max 100 (o.maxMessageLength - usedLengthOf F o s - 50)

/-- The `parts` array assembled in lines 450-473.  The separator condition
`parts.length > 0 && this.currentText` is evaluated when only the tool
section can have been pushed, so it is exactly `toolSection ≠ '' ∧
currentText ≠ ''`. -/
def messageParts (F : ToolFormatter) (o : BuildOptions) (s : SessionState)
    (allowTruncation : Bool) : List String :=
  (if toolSectionOf F o s ≠ "" then [toolSectionOf F o s] else [])
  ++ (if toolSectionOf F o s ≠ "" ∧ s.currentText ≠ ""
      then ["───────────────────────"] else [])
  ++ (if s.currentText ≠ "" then
        [if allowTruncation then
            truncateText s.currentText (availableForTextOf F o s)
          else s.currentText]
      else if ¬ s.isComplete ∧ s.toolCalls = [] then ["🤔 *Thinking...*"]
      else [])
  ++ footerPartsOf s

/-- `parts.join('\n\n')` (line 475). -/
def joinNN : List String → String
  | [] => ""
  | [p] => p
  | p :: q :: rest => p ++ "\n\n" ++ joinNN (q :: rest)

/-- `buildMessageContent` (lines 406-478), including the
`content || '🤔 *Processing...*'` fallback. -/
def buildMessageContent (F : ToolFormatter) (o : BuildOptions)
    (s : SessionState) (allowTruncation : Bool) : String :=
  if joinNN (messageParts F o s allowTruncation) = "" then "🤔 *Processing...*"
  else joinNN (messageParts F o s allowTruncation)

theorem joinNN_length_le (l : List String) :
    (joinNN l).length ≤ (l.map (fun p => p.length + 2)).sum := by
  induction l with
  | nil => simp [joinNN]
  | cons p rest ih =>
    cases rest with
    | nil => simp [joinNN]
    | cons q rest' =>
      simp only [joinNN, List.map_cons, List.sum_cons, String.length_append]
      simp only [List.map_cons, List.sum_cons] at ih
      have h2 : ("\n\n" : String).length = 2 := rfl
      omega

theorem truncateText_length_le (text : String) (n : Nat) (hn : 40 ≤ n) :
    (truncateText text n).length ≤ n := by
  unfold truncateText
  split
  · omega
  · rw [String.length_append]
    have h1 : (String.mk (text.data.take (n - 40))).length ≤ n - 40 := by
      rw [String.length_mk, List.length_take]
      omega
    have h2 : ("\n\n... *[truncated]*" : String).length = 19 := rfl
    omega

theorem messageParts_sum_le (F : ToolFormatter) (o : BuildOptions)
    (s : SessionState)
    (h : usedLengthOf F o s + 150 ≤ o.maxMessageLength) :
    ((messageParts F o s true).map (fun p => p.length + 2)).sum
      ≤ o.maxMessageLength := by
  have hA : availableForTextOf F o s
      = o.maxMessageLength - usedLengthOf F o s - 50 := by
    unfold availableForTextOf
    omega
  have hA40 : 40 ≤ availableForTextOf F o s := by
    unfold availableForTextOf
    omega
  have htr := truncateText_length_le s.currentText (availableForTextOf F o s) hA40
  have hsep : ("───────────────────────" : String).length = 23 := rfl
  have hthink : ("🤔 *Thinking...*" : String).length = 15 := rfl
  have hu : usedLengthOf F o s
      = (if toolSectionOf F o s ≠ "" then (toolSectionOf F o s).length + 2 else 0)
        + ((footerPartsOf s).map (fun p => p.length + 2)).sum
        + (if toolSectionOf F o s ≠ "" ∧ s.currentText ≠ "" then 24 else 0) := rfl
  unfold messageParts
  simp only [if_pos (rfl : true = true)]
  split_ifs at hu ⊢ <;>
    simp only [List.map_append, List.map_cons, List.map_nil, List.sum_append,
      List.sum_cons, List.sum_nil, List.nil_append, List.append_nil] <;>
    omega

/-- C2, amended: whenever the reserved overhead (tool section, footer and
separator, i.e. `usedLength`) fits with 150 characters to spare in the
budget — so the 100-character floor granted to the running text does not
overshoot — the string built with truncation allowed is within the budget.
Without that proviso the output can exceed the budget (see the
counterexample): the floor and the never-truncated tool section and footer
are emitted in full even when they alone exceed the budget. -/
theorem buildMessageContent_within_budget (F : ToolFormatter)
    (o : BuildOptions) (s : SessionState)
    (h : usedLengthOf F o s + 150 ≤ o.maxMessageLength) :
    (buildMessageContent F o s true).length ≤ o.maxMessageLength := by
  unfold buildMessageContent
  split
  · have : ("🤔 *Processing...*" : String).length = 17 := rfl
    omega
  · exact le_trans (joinNN_length_le _) (messageParts_sum_le F o s h)

/-- A formatter whose outputs are all empty; the counterexample and the
witness below do not exercise the tool section at all. -/
def trivialFormatter : ToolFormatter :=
  ⟨fun _ => "", fun _ _ => "", fun _ _ => ""⟩

/-- C2 witness: the amended theorem at the default budget on a state with
no tools, no footer and a short running text. -/
theorem buildMessageContent_within_budget_witness :
    usedLengthOf trivialFormatter ⟨true, 1950⟩
        ⟨"hello", [], false, false, ""⟩ + 150 ≤ 1950
    ∧ (buildMessageContent trivialFormatter ⟨true, 1950⟩
        ⟨"hello", [], false, false, ""⟩ true).length ≤ 1950 :=
  ⟨by decide,
    buildMessageContent_within_budget trivialFormatter ⟨true, 1950⟩
      ⟨"hello", [], false, false, ""⟩ (by decide)⟩

set_option maxRecDepth 4000 in
/-- C2 counterexample: with budget 100 and a 200-character error message
(the error footer reserves 200 characters regardless of the budget), the
builder returns 214 characters — the claimed unconditional bound is false. -/
theorem buildMessageContent_exceeds_budget :
    100 < (buildMessageContent trivialFormatter ⟨true, 100⟩
        ⟨"", [], true, true, String.mk (List.replicate 200 'x')⟩ true).length := by
  decide

/-! ## Flush scheduler (stream-renderer.ts lines 260-288) -/

/-- The debounce state (`lastFlushTime`, `flushTimeout`, `pendingFlush`,
lines 52-55).  `timerArmed = some d` records a pending one-shot timer that
was armed with delay `d`. -/
structure FlushSchedule where
  lastFlushTime : Nat
  timerArmed : Option Nat
  pendingFlush : Bool
deriving DecidableEq

/-- `scheduleFlush` (lines 260-276): set the pending flag; if a timer is
already pending, return; otherwise arm a one-shot timer with delay
`Math.max(0, debounceMs - (now - lastFlushTime))`. -/
def scheduleFlush (debounceMs : Nat) (now : Nat) (fs : FlushSchedule) :
    FlushSchedule :=
  let fs := { fs with pendingFlush := true }
  match fs.timerArmed with
  | some _ => fs
  | none =>
    let delay : Int :=
      max 0 ((debounceMs : Int) - ((now : Int) - (fs.lastFlushTime : Int)))
    { fs with timerArmed := some delay.toNat }

/-- The scheduling effect of `flushNow` (lines 281-288): clear the pending
flag, stamp the flush time, cancel any armed timer. -/
def flushNowSched (now : Nat) (_fs : FlushSchedule) : FlushSchedule :=
  { lastFlushTime := now, timerArmed := none, pendingFlush := false }

/-- The timer callback armed by `scheduleFlush` (lines 270-275): clear the
timer handle, then flush only if the pending flag is still set.  The
returned Bool records whether a flush was performed. -/
def timerFire (now : Nat) (fs : FlushSchedule) : FlushSchedule × Bool :=
  let fs := { fs with timerArmed := none }
  if fs.pendingFlush then (flushNowSched now fs, true) else (fs, false)

/-- C7: `scheduleFlush` always sets the pending flag; with a timer already
pending it arms no new timer and changes nothing else; with no timer
pending it arms a one-shot timer with delay
`max(0, debounceMs - (now - lastFlushTime))`; on expiry a flush is
performed only if the pending flag is still set, and the flush clears it. -/
theorem scheduleFlush_spec (debounceMs now : Nat) (fs : FlushSchedule) :
    (scheduleFlush debounceMs now fs).pendingFlush = true
    ∧ (∀ d, fs.timerArmed = some d →
        scheduleFlush debounceMs now fs = { fs with pendingFlush := true })
    ∧ (fs.timerArmed = none →
        (scheduleFlush debounceMs now fs).timerArmed
          = some (max 0 ((debounceMs : Int)
              - ((now : Int) - (fs.lastFlushTime : Int)))).toNat
          ∧ (scheduleFlush debounceMs now fs).lastFlushTime = fs.lastFlushTime)
    ∧ (fs.pendingFlush = false →
        timerFire now fs = ({ fs with timerArmed := none }, false))
    ∧ (fs.pendingFlush = true →
        (timerFire now fs).2 = true
          ∧ (timerFire now fs).1.pendingFlush = false) := by
  obtain ⟨lf, ta, pf⟩ := fs
  refine ⟨?_, ?_, ?_, ?_, ?_⟩
  · cases ta <;> rfl
  · intro d hd
    cases ta with
    | none => cases hd
    | some d₀ => rfl
  · intro hta
    cases ta with
    | none => exact ⟨rfl, rfl⟩
    | some d₀ => cases hta
  · intro hpf
    cases pf with
    | false => rfl
    | true => cases hpf
  · intro hpf
    cases pf with
    | false => cases hpf
    | true => exact ⟨rfl, rfl⟩

/-- C7 witness: with no timer pending and 1000ms elapsed since the last
flush, a 500ms timer is armed; a firing timer with the flag set flushes. -/
theorem scheduleFlush_spec_witness :
    (scheduleFlush 1500 2000 ⟨1000, none, false⟩).timerArmed = some 500
      ∧ (timerFire 2000 ⟨1000, none, true⟩).2 = true := by
  constructor
  · rw [((scheduleFlush_spec 1500 2000 ⟨1000, none, false⟩).2.2.1 rfl).1]
    decide
  · exact ((scheduleFlush_spec 1500 2000 ⟨1000, none, true⟩).2.2.2.2 rfl).1

/-! ## Sink interaction of a flush (stream-renderer.ts lines 290-346 and
398-401) -/

/-- `ensureMaxLength` (lines 398-401), with the exact JS `slice` semantics
(`maxMessageLength - 50` may be negative for tiny limits). -/
def ensureMaxLength (maxMessageLength : Nat) (content : String) : String :=
  if content.length ≤ maxMessageLength then content
  else
    String.mk (jsSlice content.data 0 ((maxMessageLength : Int) - 50))
      ++ "\n\n... *[streaming, more content pending...]*"

/-- A sink call: `channel.send` (create) or `message.edit`. -/
inductive SinkOp
  | create (content : String)
  | edit (handle : Nat) (content : String)
deriving DecidableEq

def SinkOp.payload : SinkOp → String
  | .create c => c
  | .edit _ c => c

/-- The single-message branch of `flushNow` (lines 304-320).  `handle` is
`this.discordMessage` (`none` before the first send); `editOk` / `sendOk`
are the outcomes of the attempted sink calls; `freshId` is the handle a
successful `channel.send` returns.  A failed `edit` is caught and answered
with a `channel.send` of the same content, whose result replaces the
handle; a failure of that fallback `send` is only logged, keeping the old
handle.  Returns the handle for subsequent flushes and the trace of
attempted operations. -/
def flushSingleBranch (mm : Nat) (handle : Option Nat) (content : String)
    (editOk sendOk : Bool) (freshId : Nat) : Option Nat × List SinkOp :=
  let c := ensureMaxLength mm content
  match handle with
  | none => (if sendOk then some freshId else none, [.create c])
  | some h =>
    if editOk then (some h, [.edit h c])
    else if sendOk then (some freshId, [.edit h c, .create c])
    else (some h, [.edit h c, .create c])

/-- The loop of `sendMultipleMessages` (lines 327-346): the first chunk is
delivered by `edit` when a message handle exists, every other chunk by
`create`; a failed call is only logged (`catch { console.error(...) }`), so
the attempted operations do not depend on the outcomes.  Each attempted
call consumes one outcome from the oracle. -/
def sendMultipleMessagesGo (handle : Option Nat) (isFirst : Bool) :
    List String → List Bool → List (SinkOp × Bool)
  | [], _ => []
  | c :: rest, outcomes =>
    let op : SinkOp :=
      match isFirst, handle with
      | true, some h => .edit h c
      | _, _ => .create c
    (op, outcomes.headD true)
      :: sendMultipleMessagesGo handle false rest (outcomes.drop 1)

/-- `sendMultipleMessages` (lines 327-346): `this.discordMessage` is never
reassigned in this function, so the handle is returned unchanged. -/
def sendMultipleMessages (handle : Option Nat) (chunks : List String)
    (outcomes : List Bool) : Option Nat × List (SinkOp × Bool) :=
  (handle, sendMultipleMessagesGo handle true chunks outcomes)

theorem sendMultipleMessagesGo_notFirst_ops (handle : Option Nat) :
    ∀ (chunks : List String) (outcomes : List Bool),
      (sendMultipleMessagesGo handle false chunks outcomes).map Prod.fst
        = chunks.map SinkOp.create := by
  intro chunks
  induction chunks with
  | nil => intro outcomes; rfl
  | cons c rest ih =>
    intro outcomes
    cases handle with
    | none => simp [sendMultipleMessagesGo, ih]
    | some h => simp [sendMultipleMessagesGo, ih]

/-- C4, amended: in the single-message branch of `flushNow`, a failed
`edit` is answered by a `create` carrying the same payload, and a
successful fallback installs the new handle for all subsequent flushes;
but at a chunked terminal flush (`sendMultipleMessages`) there is no
fallback at all: the sequence of attempted operations is fixed regardless
of outcomes (first chunk by `edit` on the existing handle, every other
chunk by `create`), and the handle is never replaced. -/
theorem edit_fallback_only_in_single_branch (mm : Nat) (h : Nat)
    (content : String) (freshId : Nat) (c : String) (rest : List String)
    (outcomes : List Bool) :
    flushSingleBranch mm (some h) content false true freshId
        = (some freshId,
           [.edit h (ensureMaxLength mm content),
            .create (ensureMaxLength mm content)])
    ∧ (sendMultipleMessages (some h) (c :: rest) outcomes).1 = some h
    ∧ (sendMultipleMessages (some h) (c :: rest) outcomes).2.map Prod.fst
        = SinkOp.edit h c :: rest.map SinkOp.create := by
  refine ⟨rfl, rfl, ?_⟩
  simp only [sendMultipleMessages, sendMultipleMessagesGo, List.map_cons]
  rw [sendMultipleMessagesGo_notFirst_ops]

/-- C4 counterexample: at a chunked terminal flush whose first-chunk `edit`
fails, no `create` carrying that chunk's content is ever attempted and the
old handle is kept — the claimed fallback does not apply there. -/
theorem chunked_edit_failure_has_no_fallback :
    (sendMultipleMessages (some 7) ["a", "b"] [false, true]).1 = some 7
    ∧ (sendMultipleMessages (some 7) ["a", "b"] [false, true]).2
        = [(.edit 7 "a", false), (.create "b", true)]
    ∧ SinkOp.create "a"
        ∉ (sendMultipleMessages (some 7) ["a", "b"] [false, true]).2.map
            Prod.fst := by
  exact ⟨rfl, rfl, by decide⟩

/-- C8: `ensureMaxLength` leaves within-limit strings unchanged and
otherwise keeps the first `maxMessageLength - 50` characters and appends
the fixed 44-character streaming marker; whenever `maxMessageLength ≥ 50`
its result is within the limit; and every operation attempted by the
single-message branch of `flushNow` carries exactly the `ensureMaxLength`
image of the built content as its payload. -/
theorem singleFlush_payload_bounded (mm : Nat) (hmm : 50 ≤ mm)
    (content : String) (handle : Option Nat) (editOk sendOk : Bool)
    (freshId : Nat) :
    (content.length ≤ mm → ensureMaxLength mm content = content)
    ∧ ("\n\n... *[streaming, more content pending...]*" : String).length = 44
    ∧ (mm < content.length →
        ensureMaxLength mm content
          = String.mk (content.data.take (mm - 50))
            ++ "\n\n... *[streaming, more content pending...]*")
    ∧ (ensureMaxLength mm content).length ≤ mm
    ∧ ∀ op ∈ (flushSingleBranch mm handle content editOk sendOk freshId).2,
        op.payload = ensureMaxLength mm content := by
  have hchar : (mm < content.length →
      ensureMaxLength mm content
        = String.mk (content.data.take (mm - 50))
          ++ "\n\n... *[streaming, more content pending...]*") := by
    intro hlt
    unfold ensureMaxLength
    rw [if_neg (by omega)]
    have hmk : jsSlice content.data 0 ((mm : Int) - 50)
        = content.data.take (mm - 50) := by
      unfold jsSlice
      rw [normIdx_zero, normIdx_of_nonneg _ _ (by omega : (0:Int) ≤ (mm : Int) - 50),
          List.drop_zero]
      have htn : ((mm : Int) - 50).toNat = mm - 50 := by omega
      rw [htn]
      rcases le_total (mm - 50) content.data.length with hle | hle
      · rw [min_eq_left hle]
      · rw [min_eq_right hle, List.take_length,
            List.take_of_length_le hle]
    rw [hmk]
  refine ⟨?_, rfl, hchar, ?_, ?_⟩
  · intro hle
    unfold ensureMaxLength
    rw [if_pos hle]
  · rcases le_or_lt content.length mm with hle | hlt
    · unfold ensureMaxLength
      rw [if_pos hle]
      exact hle
    · rw [hchar hlt, String.length_append, String.length_mk]
      have h1 : (content.data.take (mm - 50)).length ≤ mm - 50 := by
        rw [List.length_take]; omega
      have h2 : ("\n\n... *[streaming, more content pending...]*" : String).length
          = 44 := rfl
      omega
  · intro op hop
    cases handle with
    | none =>
      simp only [flushSingleBranch, List.mem_singleton] at hop
      rw [hop]
      rfl
    | some h =>
      simp only [flushSingleBranch] at hop
      split at hop
      · simp only [List.mem_singleton] at hop
        subst hop
        rfl
      · split at hop <;>
          simp only [List.mem_cons, List.mem_singleton, List.not_mem_nil,
            or_false] at hop <;>
          rcases hop with rfl | rfl <;> rfl

/-- C8 witness: at the default limit, an over-long content is truncated to
a payload within the limit. -/
theorem singleFlush_payload_bounded_witness :
    50 ≤ 1950
    ∧ (ensureMaxLength 1950 "hi").length ≤ 1950 :=
  ⟨by decide,
    (singleFlush_payload_bounded 1950 (by decide) "hi" none true true 0).2.2.2.1⟩
